import Mathlib

/-!
Verification of the html_to_md repository (tree builder + Markdown text
extractor) against its natural-language specification.

The embedding follows the source faithfully:
* `html2md.py` / `HTMLTreeBuilder.py` `HTMLTreeBuilder` — the fault-tolerant
  tree builder (`handle_starttag`, `handle_endtag`, `handle_data`).  Python
  mutates a tree through parent pointers; we model the identical process as a
  zipper: the current open element plus the stack of its open ancestors
  (innermost first).  Ascending one level (`current = current.parent`) closes
  the current element into its parent frame; `finalize` closes everything,
  yielding exactly the tree the Python code holds in `self.root`.
* `HTMLTreeBuilder.py` `extract_text` / `extract_table_text` — the Markdown
  text extractor (the feature-complete variant that §9 of the specification
  designates as the specified one).
* `html2md.py` `html_to_text` — the top-level conversion (line collapse).

Strings are modelled as `List Char` so that Python's `str.strip`,
`str.split("\n")`, `"\n".join`, `str.replace("|", "\\|")` and `str.strip("\n")`
become small recursive functions amenable to proof.
-/

namespace HtmlToMd

/-- Text content, modelled at character level (Python `str`). -/
abbrev Str := List Char

/-- Python `str.strip()`: drop whitespace from both ends. -/
def trimChars (s : Str) : Str :=
  ((s.dropWhile Char.isWhitespace).reverse.dropWhile Char.isWhitespace).reverse

/-- Python `str.split("\n")`. -/
def splitLines : Str → List Str
  | [] => [[]]
  | c :: rest =>
    if c = '\n' then [] :: splitLines rest
    else
      match splitLines rest with
      | [] => [[c]]
      | l :: ls => (c :: l) :: ls

/-- Python `sep.join(pieces)`. -/
def joinSep (sep : Str) : List Str → Str
  | [] => []
  | [x] => x
  | x :: xs => x ++ sep ++ joinSep sep xs

/-- Python `str.replace("|", "\\|")` (the pattern is a single character, so
the replacement processes each `'|'` independently). -/
def escPipe : Str → Str
  | [] => []
  | c :: rest => if c = '|' then '\\' :: '|' :: escPipe rest else c :: escPipe rest

/-- Python `str.strip("\n")`: drop `'\n'` characters from both ends. -/
def stripNL (s : Str) : Str :=
  ((s.reverse.dropWhile (· = '\n')).reverse).dropWhile (· = '\n')

/-- `"\n\n"`, the blank-line separator the extractor appends. -/
def nl2 : Str := ['\n', '\n']

/-- A node of the document tree (`Element` or trimmed text leaf in the
source): `Element` instances carry tag, attributes and ordered children;
plain Python strings in a `children` list are the text leaves. -/
inductive Node where
  | element : String → List (String × Str) → List Node → Node
  | text : Str → Node

/-- `HTMLTreeBuilder.void_tags`. -/
def void_tags : List String :=
  ["area", "base", "br", "col", "embed", "hr", "img", "input",
   "link", "meta", "param", "source", "track", "wbr"]

/-- One open (not yet closed) element during tree building: its tag,
attributes, and the children appended to it so far. -/
structure OpenElem where
  tag : String
  attrs : List (String × Str)
  children : List Node

/-- Close an open element into a tree node. -/
def closeElem (e : OpenElem) : Node := Node.element e.tag e.attrs e.children

/-- `Element.add_child`: append a completed child. -/
def pushChild (e : OpenElem) (n : Node) : OpenElem :=
  { e with children := e.children ++ [n] }

/-- The builder state: `cur` is `self.current` (as an open frame), `stack`
holds the open ancestors of `cur`, innermost first (the bottom entry is the
root frame whenever `stack` is non-empty, otherwise `cur` is the root), and
`tags` is `self.tag_stack` with its innermost (last-appended) entry first. -/
structure BState where
  cur : OpenElem
  stack : List OpenElem
  tags : List String

/-- `HTMLTreeBuilder.__init__`: current = root, empty tag stack. -/
def initState : BState := ⟨⟨"root", [], []⟩, [], []⟩

/-- `HTMLTreeBuilder.handle_starttag`. -/
def handle_starttag (s : BState) (tag : String) (attrs : List (String × Str)) : BState :=
  if tag ∈ void_tags then
    { s with cur := pushChild s.cur (Node.element tag attrs []) }
  else
    ⟨⟨tag, attrs, []⟩, s.cur :: s.stack, tag :: s.tags⟩

/-- The recovery loop of `handle_endtag`:
`while self.tag_stack and self.current.tag != tag and self.current.parent:
pop the tag stack and ascend`. -/
def ascendLoop (tag : String) : OpenElem → List OpenElem → List String → BState
  | cur, stack, [] => ⟨cur, stack, []⟩
  | cur, [], ts => ⟨cur, [], ts⟩
  | cur, f :: rest, t :: ts =>
    if cur.tag ≠ tag then ascendLoop tag (pushChild f (closeElem cur)) rest ts
    else ⟨cur, f :: rest, t :: ts⟩

/-- The final step of `handle_endtag`:
`if self.tag_stack and self.current.tag == tag and self.current.parent:
pop the tag stack and ascend once more`, applied to the state the recovery
loop stopped in. -/
def closeMatched (tag : String) (s1 : BState) : BState :=
  match s1.stack, s1.tags with
  | f :: rest, _ :: ts =>
    if s1.cur.tag = tag then ⟨pushChild f (closeElem s1.cur), rest, ts⟩ else s1
  | _, _ => s1

/-- `HTMLTreeBuilder.handle_endtag`. -/
def handle_endtag (s : BState) (tag : String) : BState :=
  if tag ∈ void_tags then s
  else closeMatched tag (ascendLoop tag s.cur s.stack s.tags)

/-- `HTMLTreeBuilder.handle_data`. -/
def handle_data (s : BState) (data : Str) : BState :=
  if trimChars data ≠ [] then { s with cur := pushChild s.cur (Node.text (trimChars data)) }
  else s

/-- A token of the external Token Source: `StartTag`, `EndTag` or `Text`. -/
inductive Token where
  | startTag : String → List (String × Str) → Token
  | endTag : String → Token
  | textData : Str → Token

/-- Dispatch one token to the corresponding handler. -/
def processToken (s : BState) : Token → BState
  | .startTag tag attrs => handle_starttag s tag attrs
  | .endTag tag => handle_endtag s tag
  | .textData d => handle_data s d

/-- `HTMLParser.feed`: process a token sequence from the initial state. -/
def processTokens (toks : List Token) : BState :=
  toks.foldl processToken initState

/-- Close all still-open frames, producing the tree rooted at the synthetic
root element — exactly the Python `self.root` (in Python every element is
already inside its parent's children list from the moment it is opened, so
`get_tree` returns the root as-is; in the zipper the pending frames are
folded in). -/
def finalize : OpenElem → List OpenElem → Node
  | cur, [] => closeElem cur
  | cur, f :: rest => finalize (pushChild f (closeElem cur)) rest

/-- `HTMLTreeBuilder.get_tree`. -/
def get_tree (s : BState) : Node := finalize s.cur s.stack

/-- The default ignored-tag set of `extract_text`. -/
def ignored_default : List String := ["script", "style", "meta", "link", "noscript"]

/-- Tags that receive an extra separating `"\n"` before them inside their
parent (headings and lists). -/
def block_sep_tags : List String := ["h1", "h2", "h3", "h4", "h5", "h6", "ul", "ol"]

/-- The "transparent container" tags: no trailing blank line is appended. -/
def container_tags : List String := ["root", "html", "body", "head", "div"]

/-- The `ul` branch: each non-blank line prefixed with `"- "`. -/
def ulLines : List Str → List Str
  | [] => []
  | line :: rest =>
    (if trimChars line = [] then line else "- ".data ++ line) :: ulLines rest

/-- The `ol` branch: each non-blank line prefixed with `"{counter}. "`, the
counter advancing only on non-blank lines. -/
def olLines : Nat → List Str → List Str
  | _, [] => []
  | n, line :: rest =>
    if trimChars line = [] then line :: olLines n rest
    else ((toString n).data ++ ". ".data ++ line) :: olLines (n + 1) rest

/-- `element.attrs.get("href", "")`: Python's `dict(attrs)` keeps the last
binding of a duplicated attribute name, hence the lookup on the reversed
association list. -/
def getHref (attrs : List (String × Str)) : Str :=
  (List.lookup "href" attrs.reverse).getD []

/-- The per-tag post-formatting chain of `extract_text`
(`HTMLTreeBuilder.py`, the `if element.tag == "h1": ...` ladder). -/
def applyFormat (tag : String) (attrs : List (String × Str)) (content : Str) : Str :=
  if tag = "h1" then "# ".data ++ content
  else if tag = "h2" then "## ".data ++ content
  else if tag = "h3" then "### ".data ++ content
  else if tag = "h4" then "#### ".data ++ content
  else if tag = "h5" then "##### ".data ++ content
  else if tag = "h6" then "###### ".data ++ content
  else if tag = "strong" then "**".data ++ content ++ "**".data
  else if tag = "em" then "*".data ++ content ++ "*".data
  else if tag = "a" then
    let href := getHref attrs
    let textContent := if content = [] then href else content
    "[".data ++ textContent ++ "](".data ++ href ++ ")".data
  else if tag = "ul" then joinSep ['\n'] (ulLines (splitLines content))
  else if tag = "ol" then joinSep ['\n'] (olLines 1 (splitLines content))
  else content

/-- `"| " + " | ".join(row) + " |"`: one Markdown table line. -/
def mdRow (row : List Str) : Str :=
  "| ".data ++ joinSep " | ".data row ++ " |".data

/-- Assemble the Markdown table from the kept rows (`extract_table_text`
after `rows` has been collected): empty when no rows, otherwise header from
the first row, a `---` separator with one entry per header cell, one line per
remaining row, joined by `"\n"` with trailing `"\n\n"`. -/
def mdTable (rows : List (List Str)) : Str :=
  match rows with
  | [] => []
  | r0 :: rest =>
    joinSep ['\n'] (mdRow r0 :: mdRow (r0.map fun _ => "---".data) :: rest.map mdRow) ++ nl2

mutual

/-- `extract_text` (`HTMLTreeBuilder.py`): recursive Markdown extraction. -/
def extract_text (ignored : List String) : Node → Str
  | .text s => if trimChars s = [] then [] else trimChars s ++ nl2
  | .element tag attrs children =>
    if tag ∈ ignored then []
    else if tag = "table" then mdTable (tableRows ignored children)
    else if tag = "hr" then "---".data ++ nl2
    else
      let content := applyFormat tag attrs (trimChars (childText ignored 0 children))
      if content ≠ [] ∧ tag ∉ container_tags then content ++ nl2 else content

/-- The `for i, child in enumerate(element.children)` accumulation loop of
`extract_text`, started at index `i`; returns the concatenation of the
accumulated `text` list (filtering falsy entries does not change a string
concatenation). -/
def childText (ignored : List String) (i : Nat) : List Node → Str
  | [] => []
  | child :: rest =>
    (match child with
     | .text s => if trimChars s = [] then [] else trimChars s ++ nl2
     | .element ctag cattrs cchildren =>
       let ct := extract_text ignored (.element ctag cattrs cchildren)
       if ct = [] then []
       else
         (if 0 < i then ['\n'] else [])
           ++ (if ctag ∈ block_sep_tags then ['\n'] else [])
           ++ (if ctag = "a" then ['\n'] else [])
           ++ trimChars ct)
      ++ childText ignored (i + 1) rest

/-- The row-collection loop of `extract_table_text`: for each `tr` child keep
the row of its non-empty `th`/`td` cells, dropping rows with no kept cell. -/
def tableRows (ignored : List String) : List Node → List (List Str)
  | [] => []
  | child :: rest =>
    match child with
    | .element ctag _ trChildren =>
      if ctag = "tr" then
        let row := rowCells ignored trChildren
        if row = [] then tableRows ignored rest else row :: tableRows ignored rest
      else tableRows ignored rest
    | .text _ => tableRows ignored rest

/-- The cell loop of `extract_table_text`: keep each `th`/`td` cell whose
trimmed extracted text is non-empty, pipe-escaped and with stray newlines
stripped. -/
def rowCells (ignored : List String) : List Node → List Str
  | [] => []
  | cell :: rest =>
    match cell with
    | .element ctag cattrs cchildren =>
      if ctag = "th" ∨ ctag = "td" then
        let cell_text := trimChars (extract_text ignored (.element ctag cattrs cchildren))
        if cell_text = [] then rowCells ignored rest
        else stripNL (escPipe cell_text) :: rowCells ignored rest
      else rowCells ignored rest
    | .text _ => rowCells ignored rest

end

/-- `extract_table_text` (`HTMLTreeBuilder.py`): table element → Markdown. -/
def extract_table_text (ignored : List String) (children : List Node) : Str :=
  mdTable (tableRows ignored children)

/-- `html_to_text` (`html2md.py`): build the tree from the token sequence,
extract, then drop blank lines, re-join with `"\n"` and add one trailing
newline (empty extraction gives the empty string). -/
def html_to_text (toks : List Token) : Str :=
  if extract_text ignored_default (get_tree (processTokens toks)) = [] then []
  else
    joinSep ['\n']
      ((splitLines (extract_text ignored_default (get_tree (processTokens toks)))).filter
        (fun l => !(trimChars l).isEmpty)) ++ ['\n']

/-! ## Tree-builder lemmas -/

/-- The tags of the open path, from `current` up to (and excluding) the
bottom (root) frame — i.e. `tag_stack` read innermost-first. -/
def openTags : OpenElem → List OpenElem → List String
  | _, [] => []
  | cur, f :: rest => cur.tag :: openTags f rest

/-- The builder invariant: `tag_stack` lists exactly the tags on the
parent-chain path from the root down to `current`, the root's own tag
excluded (`BState.tags` and `openTags` both store that path innermost
first, so Python's `tag_stack` is their common reversal). -/
def tagStackInv (s : BState) : Prop := s.tags = openTags s.cur s.stack

mutual

/-- Every element of the tree with a void tag has an empty children list. -/
def voidFree : Node → Bool
  | .text _ => true
  | .element tag _ children =>
    (if tag ∈ void_tags then children.isEmpty else true) && voidFreeList children

/-- `voidFree` on every node of a list. -/
def voidFreeList : List Node → Bool
  | [] => true
  | n :: rest => voidFree n && voidFreeList rest

end

mutual

/-- Every text leaf of the tree has non-empty trimmed content. -/
def leavesTrimmed : Node → Bool
  | .text s => !(trimChars s).isEmpty
  | .element _ _ children => leavesTrimmedList children

/-- `leavesTrimmed` on every node of a list. -/
def leavesTrimmedList : List Node → Bool
  | [] => true
  | n :: rest => leavesTrimmed n && leavesTrimmedList rest

end

/-- Invariant of one open frame during building: its tag is not void (void
elements are never descended into) and the children completed so far are
void-clean with trimmed text leaves. -/
def frameInv (e : OpenElem) : Prop :=
  e.tag ∉ void_tags ∧ voidFreeList e.children = true ∧ leavesTrimmedList e.children = true

/-- Invariant of the whole builder state. -/
def buildInv (s : BState) : Prop :=
  frameInv s.cur ∧ (∀ f ∈ s.stack, frameInv f) ∧ (∀ t ∈ s.tags, t ∉ void_tags)

/-- A `th`/`td` cell whose trimmed extracted text is non-empty. -/
def isNonemptyCell (ignored : List String) : Node → Bool
  | .element ctag cattrs cchildren =>
    (ctag == "th" || ctag == "td")
      && !(trimChars (extract_text ignored (.element ctag cattrs cchildren))).isEmpty
  | .text _ => false

/-- A `tr` element containing at least one non-empty `th`/`td` cell — the
rows the Table Extractor keeps. -/
def isKeptRow (ignored : List String) : Node → Bool
  | .element ctag _ trChildren => ctag == "tr" && trChildren.any (isNonemptyCell ignored)
  | .text _ => false

/-- Every `'|'` character of the string is immediately preceded by `'\\'`,
i.e. every literal pipe appears escaped as `\|`. -/
def pipesEscaped (s : Str) : Prop :=
  ∀ pre post, s = pre ++ '|' :: post → pre.getLast? = some '\\'

mutual

/-- Two trees that differ only in attribute values, except that `a` elements
must agree on their effective `href` attribute (the only attribute the
extractor reads). -/
inductive AEq : Node → Node → Prop where
  | text (s : Str) : AEq (.text s) (.text s)
  | element (tag : String) (a1 a2 : List (String × Str)) (cs1 cs2 : List Node)
      (hhref : tag = "a" → getHref a1 = getHref a2) (hcs : AEqs cs1 cs2) :
      AEq (.element tag a1 cs1) (.element tag a2 cs2)

/-- Pointwise `AEq` on children lists. -/
inductive AEqs : List Node → List Node → Prop where
  | nil : AEqs [] []
  | cons {n1 n2 : Node} {l1 l2 : List Node} (h : AEq n1 n2) (hs : AEqs l1 l2) :
      AEqs (n1 :: l1) (n2 :: l2)

end

theorem openTags_pushChild (e : OpenElem) (n : Node) (stack : List OpenElem) :
    openTags (pushChild e n) stack = openTags e stack := by
  cases stack <;> simp [openTags, pushChild]

theorem openTags_length (cur : OpenElem) (stack : List OpenElem) :
    (openTags cur stack).length = stack.length := by
  induction stack generalizing cur with
  | nil => rfl
  | cons f rest ih => simp [openTags, ih]

theorem ascendLoop_inv (tag : String) (cur : OpenElem) (stack : List OpenElem)
    (ts : List String) (h : ts = openTags cur stack) :
    tagStackInv (ascendLoop tag cur stack ts) := by
  induction stack generalizing cur ts with
  | nil =>
    subst h
    simp [openTags, ascendLoop, tagStackInv]
  | cons f rest ih =>
    subst h
    simp only [openTags, ascendLoop]
    split
    · exact ih (pushChild f (closeElem cur)) _ (openTags_pushChild f (closeElem cur) rest).symm
    · simp [tagStackInv, openTags]

theorem handle_starttag_inv (s : BState) (tag : String) (attrs : List (String × Str))
    (h : tagStackInv s) : tagStackInv (handle_starttag s tag attrs) := by
  unfold handle_starttag
  split
  · simpa [tagStackInv, openTags_pushChild] using h
  · simpa [tagStackInv, openTags] using h

theorem closeMatched_inv (tag : String) (s1 : BState)
    (h1 : tagStackInv s1) : tagStackInv (closeMatched tag s1) := by
  unfold closeMatched
  split
  · next f rest t ts hst hts =>
    split
    · unfold tagStackInv at h1 ⊢
      rw [hst, hts] at h1
      simp only [openTags, List.cons.injEq] at h1
      simpa [openTags_pushChild] using h1.2
    · exact h1
  · exact h1

theorem handle_endtag_inv (s : BState) (tag : String)
    (h : tagStackInv s) : tagStackInv (handle_endtag s tag) := by
  unfold handle_endtag
  split
  · exact h
  · exact closeMatched_inv tag _ (ascendLoop_inv tag s.cur s.stack s.tags h)

theorem handle_data_inv (s : BState) (data : Str)
    (h : tagStackInv s) : tagStackInv (handle_data s data) := by
  unfold handle_data
  split
  · simpa [tagStackInv, openTags_pushChild] using h
  · exact h

theorem processToken_inv (s : BState) (t : Token)
    (h : tagStackInv s) : tagStackInv (processToken s t) := by
  cases t with
  | startTag tag attrs => exact handle_starttag_inv s tag attrs h
  | endTag tag => exact handle_endtag_inv s tag h
  | textData d => exact handle_data_inv s d h

theorem foldl_inv (toks : List Token) (s : BState)
    (h : tagStackInv s) : tagStackInv (toks.foldl processToken s) := by
  induction toks generalizing s with
  | nil => exact h
  | cons t rest ih => exact ih _ (processToken_inv s t h)

theorem processTokens_inv (toks : List Token) : tagStackInv (processTokens toks) :=
  foldl_inv toks initState rfl

/-- Ascending the zipper never changes the denoted tree: closing the current
element into its parent frame is exactly one `finalize` step.  In the Python
original the children lists are literally untouched by ascension (`current =
current.parent` only moves a pointer); this lemma is the zipper counterpart. -/
theorem get_tree_ascendLoop (tag : String) (cur : OpenElem) (stack : List OpenElem)
    (ts : List String) : get_tree (ascendLoop tag cur stack ts) = finalize cur stack := by
  induction stack generalizing cur ts with
  | nil => cases ts <;> simp [ascendLoop, get_tree]
  | cons f rest ih =>
    cases ts with
    | nil => simp [ascendLoop, get_tree]
    | cons t ts =>
      simp only [ascendLoop]
      split
      · rw [ih]
        simp [finalize]
      · simp [get_tree]

/-! ## Character-string lemmas -/

theorem dropWhile_head_false {α} (p : α → Bool) {l t : List α} {c : α}
    (h : l.dropWhile p = c :: t) : p c = false := by
  induction l with
  | nil => simp [List.dropWhile] at h
  | cons a l ih =>
    rw [List.dropWhile_cons] at h
    split at h
    · exact ih h
    · next hpa =>
      cases h
      simpa using hpa

theorem dropWhile_cons_false {α} (p : α → Bool) (c : α) (t : List α)
    (h : p c = false) : (c :: t).dropWhile p = c :: t := by
  simp [List.dropWhile_cons, h]

theorem dropWhile_dropWhile {α} (p : α → Bool) (l : List α) :
    (l.dropWhile p).dropWhile p = l.dropWhile p := by
  cases hu : l.dropWhile p with
  | nil => rfl
  | cons c t => exact dropWhile_cons_false p c t (dropWhile_head_false p hu)

theorem dropWhile_append_singleton {α} (p : α → Bool) (l : List α) (c : α)
    (h : p c = false) : ∃ l2, (l ++ [c]).dropWhile p = l2 ++ [c] := by
  induction l with
  | nil => exact ⟨[], by simp [List.dropWhile_cons, h]⟩
  | cons a l ih =>
    rw [List.cons_append, List.dropWhile_cons]
    split
    · exact ih
    · exact ⟨a :: l, rfl⟩

/-- Python's `strip` is idempotent. -/
theorem trimChars_idem (s : Str) : trimChars (trimChars s) = trimChars s := by
  unfold trimChars
  cases hu : s.dropWhile Char.isWhitespace with
  | nil => simp
  | cons c0 u =>
    have hc0 : Char.isWhitespace c0 = false := dropWhile_head_false _ hu
    obtain ⟨l2, hl2⟩ := dropWhile_append_singleton Char.isWhitespace u.reverse c0 hc0
    rw [List.reverse_cons, hl2]
    have hr : ((l2 ++ [c0]).reverse).dropWhile Char.isWhitespace = (l2 ++ [c0]).reverse := by
      rw [List.reverse_append, List.reverse_singleton, List.singleton_append]
      exact dropWhile_cons_false _ _ _ hc0
    rw [hr, List.reverse_reverse, ← hl2, dropWhile_dropWhile, hl2]

/-- `trimChars` never turns the empty result of an inner trim non-empty. -/
theorem trimChars_trim_ne_nil {s : Str} (h : trimChars s ≠ []) :
    trimChars (trimChars s) ≠ [] := by
  rw [trimChars_idem]; exact h

/-! ## Void-tag and text-leaf invariants of the builder -/

theorem voidFreeList_append (l : List Node) (n : Node) :
    voidFreeList (l ++ [n]) = (voidFreeList l && voidFree n) := by
  induction l with
  | nil => simp [voidFreeList]
  | cons a l ih => simp [voidFreeList, ih, Bool.and_assoc]

theorem leavesTrimmedList_append (l : List Node) (n : Node) :
    leavesTrimmedList (l ++ [n]) = (leavesTrimmedList l && leavesTrimmed n) := by
  induction l with
  | nil => simp [leavesTrimmedList]
  | cons a l ih => simp [leavesTrimmedList, ih, Bool.and_assoc]

theorem frameInv_pushChild {e : OpenElem} {n : Node} (he : frameInv e)
    (h1 : voidFree n = true) (h2 : leavesTrimmed n = true) :
    frameInv (pushChild e n) := by
  obtain ⟨ht, hv, hl⟩ := he
  refine ⟨?_, ?_, ?_⟩
  · simpa [pushChild] using ht
  · simp [pushChild, voidFreeList_append, hv, h1]
  · simp [pushChild, leavesTrimmedList_append, hl, h2]

theorem closeElem_ok {e : OpenElem} (he : frameInv e) :
    voidFree (closeElem e) = true ∧ leavesTrimmed (closeElem e) = true := by
  obtain ⟨ht, hv, hl⟩ := he
  constructor
  · simp [closeElem, voidFree, if_neg ht, hv]
  · simp [closeElem, leavesTrimmed, hl]

theorem handle_starttag_buildInv (s : BState) (tag : String)
    (attrs : List (String × Str)) (h : buildInv s) :
    buildInv (handle_starttag s tag attrs) := by
  obtain ⟨hcur, hstack, htags⟩ := h
  unfold handle_starttag
  split
  · refine ⟨frameInv_pushChild hcur ?_ ?_, hstack, htags⟩
    · simp [voidFree, voidFreeList]
    · simp [leavesTrimmed, leavesTrimmedList]
  · next hnv =>
    refine ⟨⟨hnv, rfl, rfl⟩, ?_, ?_⟩
    · intro f hf
      rcases List.mem_cons.mp hf with rfl | hf
      · exact hcur
      · exact hstack f hf
    · intro t ht
      rcases List.mem_cons.mp ht with rfl | ht
      · exact hnv
      · exact htags t ht

theorem ascendLoop_buildInv (tag : String) (cur : OpenElem) (stack : List OpenElem)
    (ts : List String) (hcur : frameInv cur) (hstack : ∀ f ∈ stack, frameInv f)
    (htags : ∀ t ∈ ts, t ∉ void_tags) : buildInv (ascendLoop tag cur stack ts) := by
  induction stack generalizing cur ts with
  | nil =>
    cases ts <;> simp only [ascendLoop] <;>
      exact ⟨hcur, fun f hf => absurd hf (List.not_mem_nil f), htags⟩
  | cons f rest ih =>
    cases ts with
    | nil => exact ⟨hcur, hstack, fun t ht => nomatch ht⟩
    | cons t ts =>
      simp only [ascendLoop]
      split
      · apply ih
        · exact frameInv_pushChild (hstack f (List.mem_cons_self f rest))
            (closeElem_ok hcur).1 (closeElem_ok hcur).2
        · exact fun g hg => hstack g (List.mem_cons_of_mem f hg)
        · exact fun u hu => htags u (List.mem_cons_of_mem t hu)
      · exact ⟨hcur, hstack, htags⟩

theorem closeMatched_buildInv (tag : String) (s1 : BState) (h : buildInv s1) :
    buildInv (closeMatched tag s1) := by
  obtain ⟨hcur, hstack, htags⟩ := h
  unfold closeMatched
  split
  · next f rest t ts hst hts =>
    split
    · refine ⟨?_, ?_, ?_⟩
      · exact frameInv_pushChild (hstack f (hst ▸ List.mem_cons_self f rest))
          (closeElem_ok hcur).1 (closeElem_ok hcur).2
      · exact fun g hg => hstack g (hst ▸ List.mem_cons_of_mem f hg)
      · exact fun u hu => htags u (hts ▸ List.mem_cons_of_mem t hu)
    · exact ⟨hcur, hstack, htags⟩
  · exact ⟨hcur, hstack, htags⟩

theorem handle_endtag_buildInv (s : BState) (tag : String) (h : buildInv s) :
    buildInv (handle_endtag s tag) := by
  unfold handle_endtag
  split
  · exact h
  · exact closeMatched_buildInv tag _ (ascendLoop_buildInv tag s.cur s.stack s.tags h.1 h.2.1 h.2.2)

theorem handle_data_buildInv (s : BState) (data : Str) (h : buildInv s) :
    buildInv (handle_data s data) := by
  obtain ⟨hcur, hstack, htags⟩ := h
  unfold handle_data
  split
  · next hnz =>
    refine ⟨frameInv_pushChild hcur rfl ?_, hstack, htags⟩
    simpa [leavesTrimmed, List.isEmpty_iff] using trimChars_trim_ne_nil hnz
  · exact ⟨hcur, hstack, htags⟩

theorem processToken_buildInv (s : BState) (t : Token) (h : buildInv s) :
    buildInv (processToken s t) := by
  cases t with
  | startTag tag attrs => exact handle_starttag_buildInv s tag attrs h
  | endTag tag => exact handle_endtag_buildInv s tag h
  | textData d => exact handle_data_buildInv s d h

theorem buildInv_init : buildInv initState :=
  ⟨⟨by decide, rfl, rfl⟩, by simp [initState], by simp [initState]⟩

theorem foldl_buildInv (toks : List Token) (s : BState) (h : buildInv s) :
    buildInv (toks.foldl processToken s) := by
  induction toks generalizing s with
  | nil => exact h
  | cons t rest ih => exact ih _ (processToken_buildInv s t h)

theorem processTokens_buildInv (toks : List Token) : buildInv (processTokens toks) :=
  foldl_buildInv toks initState buildInv_init

theorem finalize_ok (cur : OpenElem) (stack : List OpenElem) (hcur : frameInv cur)
    (hstack : ∀ f ∈ stack, frameInv f) :
    voidFree (finalize cur stack) = true ∧ leavesTrimmed (finalize cur stack) = true := by
  induction stack generalizing cur with
  | nil => exact closeElem_ok hcur
  | cons f rest ih =>
    simp only [finalize]
    exact ih _ (frameInv_pushChild (hstack f (List.mem_cons_self f rest))
        (closeElem_ok hcur).1 (closeElem_ok hcur).2)
      (fun g hg => hstack g (List.mem_cons_of_mem f hg))

theorem get_tree_ok (toks : List Token) :
    voidFree (get_tree (processTokens toks)) = true ∧
    leavesTrimmed (get_tree (processTokens toks)) = true := by
  have h := processTokens_buildInv toks
  exact finalize_ok _ _ h.1 h.2.1

/-! ## Claim theorems: tree builder -/

/-- Claim C1: an end tag that is not void and finds no matching open element
(the recovery loop stops — stack exhausted, root reached or guard failed —
with `current.tag` still different from the tag) is handled without error
(`handle_endtag` is a total function), leaves the builder exactly in the
state the ascension loop stopped in (in particular `current` is exactly where
the search stopped), and leaves the denoted tree — every node's children
list — unchanged. -/
theorem claim1_orphan_endtag_harmless (s : BState) (tag : String)
    (hv : tag ∉ void_tags)
    (hnm : (ascendLoop tag s.cur s.stack s.tags).cur.tag ≠ tag) :
    handle_endtag s tag = ascendLoop tag s.cur s.stack s.tags ∧
    get_tree (handle_endtag s tag) = get_tree s := by
  have he : handle_endtag s tag = ascendLoop tag s.cur s.stack s.tags := by
    unfold handle_endtag
    rw [if_neg hv]
    unfold closeMatched
    split
    · rw [if_neg hnm]
    · rfl
  refine ⟨he, ?_⟩
  rw [he]
  exact get_tree_ascendLoop tag s.cur s.stack s.tags

/-- Witness for C1: after `<div>`, the orphan end tag `</span>` ascends to
the root and is then silently dropped. -/
theorem claim1_orphan_endtag_harmless_witness :
    ("span" ∉ void_tags) ∧
    ((ascendLoop "span" (processTokens [Token.startTag "div" []]).cur
        (processTokens [Token.startTag "div" []]).stack
        (processTokens [Token.startTag "div" []]).tags).cur.tag ≠ "span") ∧
    (handle_endtag (processTokens [Token.startTag "div" []]) "span" =
        ascendLoop "span" (processTokens [Token.startTag "div" []]).cur
          (processTokens [Token.startTag "div" []]).stack
          (processTokens [Token.startTag "div" []]).tags ∧
      get_tree (handle_endtag (processTokens [Token.startTag "div" []]) "span") =
        get_tree (processTokens [Token.startTag "div" []])) :=
  ⟨by decide, by decide,
    claim1_orphan_endtag_harmless (processTokens [Token.startTag "div" []]) "span"
      (by decide) (by decide)⟩

/-- Claim C8: void-tagged elements are childless in the final tree of any
token sequence, void tags never appear on the build stack, and an end tag
for a void tag is a strict no-op (stack, current and tree all unchanged). -/
theorem claim8_void_tags_childless :
    (∀ toks : List Token, voidFree (get_tree (processTokens toks)) = true ∧
      ∀ t ∈ (processTokens toks).tags, t ∉ void_tags) ∧
    (∀ (s : BState) (tag : String), tag ∈ void_tags → handle_endtag s tag = s) := by
  constructor
  · intro toks
    exact ⟨(get_tree_ok toks).1, (processTokens_buildInv toks).2.2⟩
  · intro s tag hv
    unfold handle_endtag
    rw [if_pos hv]

/-- Witness for C8: `</br>` leaves the initial state untouched. -/
theorem claim8_void_tags_childless_witness :
    ("br" ∈ void_tags) ∧ handle_endtag initState "br" = initState :=
  ⟨by decide, claim8_void_tags_childless.2 initState "br" (by decide)⟩

/-- Claim C9: `handle_data` appends a text leaf exactly when the data has a
non-whitespace character, the appended leaf holds the trimmed data, and
consequently every text leaf of any built tree has non-empty trimmed
content. -/
theorem claim9_text_leaves_trimmed :
    (∀ (s : BState) (data : Str), trimChars data = [] → handle_data s data = s) ∧
    (∀ (s : BState) (data : Str), trimChars data ≠ [] →
      handle_data s data =
        { s with cur := pushChild s.cur (Node.text (trimChars data)) }) ∧
    (∀ toks : List Token, leavesTrimmed (get_tree (processTokens toks)) = true) := by
  refine ⟨?_, ?_, fun toks => (get_tree_ok toks).2⟩
  · intro s data h
    unfold handle_data
    rw [if_neg (by simpa using h)]
  · intro s data h
    unfold handle_data
    rw [if_pos h]

/-- Witness for C9: whitespace-only data is dropped, `" hi "` is appended
trimmed. -/
theorem claim9_text_leaves_trimmed_witness :
    (trimChars "  ".data = [] ∧ handle_data initState "  ".data = initState) ∧
    (trimChars " hi ".data ≠ [] ∧
      handle_data initState " hi ".data =
        { initState with
            cur := pushChild initState.cur (Node.text (trimChars " hi ".data)) }) :=
  ⟨⟨by decide, claim9_text_leaves_trimmed.1 initState "  ".data (by decide)⟩,
   ⟨by decide, claim9_text_leaves_trimmed.2.1 initState " hi ".data (by decide)⟩⟩

/-- Claim C10: the tag stack always lists exactly the tags on the
parent-chain path from the root down to `current` with the root excluded
(both `BState.tags` and `openTags` store that path innermost-first, i.e. as
the reversal of Python's `tag_stack` list order); each handler preserves
this; it holds after processing any token sequence; hence the stack length
equals the depth of `current` (its number of proper ancestors) and the stack
is empty exactly when `current` is the root (no open ancestor frames). -/
theorem claim10_tag_stack_is_open_path :
    (∀ (s : BState) (tag : String) (attrs : List (String × Str)),
      tagStackInv s → tagStackInv (handle_starttag s tag attrs)) ∧
    (∀ (s : BState) (tag : String), tagStackInv s → tagStackInv (handle_endtag s tag)) ∧
    (∀ (s : BState) (data : Str), tagStackInv s → tagStackInv (handle_data s data)) ∧
    (∀ toks : List Token, tagStackInv (processTokens toks)) ∧
    (∀ toks : List Token,
      (processTokens toks).tags.length = (processTokens toks).stack.length ∧
      ((processTokens toks).tags = [] ↔ (processTokens toks).stack = [])) := by
  refine ⟨handle_starttag_inv, handle_endtag_inv, handle_data_inv, processTokens_inv, ?_⟩
  intro toks
  have h := processTokens_inv toks
  unfold tagStackInv at h
  constructor
  · rw [h, openTags_length]
  · rw [h]
    cases hs : (processTokens toks).stack with
    | nil => simp [openTags]
    | cons f rest => simp [openTags]

/-- Witness for C10: the invariant holds in the initial state and is kept by
opening a `p` element there. -/
theorem claim10_tag_stack_is_open_path_witness :
    tagStackInv initState ∧ tagStackInv (handle_starttag initState "p" []) :=
  ⟨rfl, claim10_tag_stack_is_open_path.1 initState "p" [] rfl⟩

/-! ## Extractor lemmas -/

/-- `extract_text` on a generic element (not ignored, not `table`, not
`hr`): join the children, trim, apply the per-tag formatting and append the
blank-line separator unless the tag is a transparent container or the
content is empty. -/
theorem extract_text_element (ignored : List String) (tag : String)
    (attrs : List (String × Str)) (children : List Node)
    (h1 : tag ∉ ignored) (h2 : tag ≠ "table") (h3 : tag ≠ "hr") :
    extract_text ignored (.element tag attrs children) =
      if applyFormat tag attrs (trimChars (childText ignored 0 children)) ≠ []
          ∧ tag ∉ container_tags
      then applyFormat tag attrs (trimChars (childText ignored 0 children)) ++ nl2
      else applyFormat tag attrs (trimChars (childText ignored 0 children)) := by
  rw [extract_text]
  simp only [if_neg h1, if_neg h2, if_neg h3]

/-- Claim C4: on the generic extraction path (tag neither ignored nor
`table` nor `hr`), an element whose formatted content is non-empty gets a
trailing blank line `"\n\n"` appended unless its tag is a transparent
container, in which case the content is returned unsuffixed; and the
transparent-container set is exactly `root, html, body, head, div`. -/
theorem claim4_transparent_containers :
    (∀ (ignored : List String) (tag : String) (attrs : List (String × Str))
        (children : List Node), tag ∉ ignored → tag ≠ "table" → tag ≠ "hr" →
      applyFormat tag attrs (trimChars (childText ignored 0 children)) ≠ [] →
      (tag ∈ container_tags →
        extract_text ignored (.element tag attrs children) =
          applyFormat tag attrs (trimChars (childText ignored 0 children))) ∧
      (tag ∉ container_tags →
        extract_text ignored (.element tag attrs children) =
          applyFormat tag attrs (trimChars (childText ignored 0 children)) ++ nl2)) ∧
    (∀ t : String, t ∈ container_tags ↔
      (t = "root" ∨ t = "html" ∨ t = "body" ∨ t = "head" ∨ t = "div")) := by
  constructor
  · intro ignored tag attrs children h1 h2 h3 hc
    rw [extract_text_element ignored tag attrs children h1 h2 h3]
    constructor
    · intro hin
      rw [if_neg (by simp [hin])]
    · intro hout
      rw [if_pos ⟨hc, hout⟩]
  · intro t
    simp [container_tags]

/-- Witness for C4: a `p` element with content `x` gets the blank-line
suffix; a `div` with the same content does not. -/
theorem claim4_transparent_containers_witness :
    (("p" : String) ∉ ignored_default) ∧
    (applyFormat "p" [] (trimChars (childText ignored_default 0 [Node.text "x".data])) ≠ []) ∧
    ("p" ∉ container_tags) ∧
    extract_text ignored_default (Node.element "p" [] [Node.text "x".data]) =
      applyFormat "p" [] (trimChars (childText ignored_default 0 [Node.text "x".data])) ++ nl2 :=
  ⟨by decide, by decide, by decide,
    (claim4_transparent_containers.1 ignored_default "p" [] [Node.text "x".data]
      (by decide) (by decide) (by decide) (by decide)).2 (by decide)⟩

/-- Claim C3: a heading element `h1`..`h6` of level `N` with non-empty
extracted content yields a string beginning with exactly `N` `'#'`
characters followed by a single space (character `N` — 0-based — is the
space, so no further `'#'` follows the prefix). -/
theorem claim3_heading_prefix (n : Nat) (h1 : 1 ≤ n) (h6 : n ≤ 6)
    (attrs : List (String × Str)) (children : List Node)
    (_hc : trimChars (childText ignored_default 0 children) ≠ []) :
    (extract_text ignored_default
        (.element ("h" ++ toString n) attrs children)).take (n + 1)
      = List.replicate n '#' ++ [' '] := by
  interval_cases n
  · rw [extract_text_element _ _ _ _ (by decide) (by decide) (by decide)]
    have hfmt : applyFormat ("h" ++ toString 1) attrs
        (trimChars (childText ignored_default 0 children)) =
        "# ".data ++ trimChars (childText ignored_default 0 children) := by
      unfold applyFormat
      rw [if_pos (by decide)]
    rw [hfmt, if_pos ⟨List.append_ne_nil_of_left_ne_nil (by decide) _, by decide⟩]
    rw [List.append_assoc]
    rfl
  · rw [extract_text_element _ _ _ _ (by decide) (by decide) (by decide)]
    have hfmt : applyFormat ("h" ++ toString 2) attrs
        (trimChars (childText ignored_default 0 children)) =
        "## ".data ++ trimChars (childText ignored_default 0 children) := by
      unfold applyFormat
      rw [if_neg (by decide), if_pos (by decide)]
    rw [hfmt, if_pos ⟨List.append_ne_nil_of_left_ne_nil (by decide) _, by decide⟩]
    rw [List.append_assoc]
    rfl
  · rw [extract_text_element _ _ _ _ (by decide) (by decide) (by decide)]
    have hfmt : applyFormat ("h" ++ toString 3) attrs
        (trimChars (childText ignored_default 0 children)) =
        "### ".data ++ trimChars (childText ignored_default 0 children) := by
      unfold applyFormat
      rw [if_neg (by decide), if_neg (by decide), if_pos (by decide)]
    rw [hfmt, if_pos ⟨List.append_ne_nil_of_left_ne_nil (by decide) _, by decide⟩]
    rw [List.append_assoc]
    rfl
  · rw [extract_text_element _ _ _ _ (by decide) (by decide) (by decide)]
    have hfmt : applyFormat ("h" ++ toString 4) attrs
        (trimChars (childText ignored_default 0 children)) =
        "#### ".data ++ trimChars (childText ignored_default 0 children) := by
      unfold applyFormat
      rw [if_neg (by decide), if_neg (by decide), if_neg (by decide), if_pos (by decide)]
    rw [hfmt, if_pos ⟨List.append_ne_nil_of_left_ne_nil (by decide) _, by decide⟩]
    rw [List.append_assoc]
    rfl
  · rw [extract_text_element _ _ _ _ (by decide) (by decide) (by decide)]
    have hfmt : applyFormat ("h" ++ toString 5) attrs
        (trimChars (childText ignored_default 0 children)) =
        "##### ".data ++ trimChars (childText ignored_default 0 children) := by
      unfold applyFormat
      rw [if_neg (by decide), if_neg (by decide), if_neg (by decide), if_neg (by decide),
        if_pos (by decide)]
    rw [hfmt, if_pos ⟨List.append_ne_nil_of_left_ne_nil (by decide) _, by decide⟩]
    rw [List.append_assoc]
    rfl
  · rw [extract_text_element _ _ _ _ (by decide) (by decide) (by decide)]
    have hfmt : applyFormat ("h" ++ toString 6) attrs
        (trimChars (childText ignored_default 0 children)) =
        "###### ".data ++ trimChars (childText ignored_default 0 children) := by
      unfold applyFormat
      rw [if_neg (by decide), if_neg (by decide), if_neg (by decide), if_neg (by decide),
        if_neg (by decide), if_pos (by decide)]
    rw [hfmt, if_pos ⟨List.append_ne_nil_of_left_ne_nil (by decide) _, by decide⟩]
    rw [List.append_assoc]
    rfl

/-- Witness for C3: `<h3>Hi</h3>` produces a string starting `### `. -/
theorem claim3_heading_prefix_witness :
    ((1 : Nat) ≤ 3) ∧ ((3 : Nat) ≤ 6) ∧
    (trimChars (childText ignored_default 0 [Node.text "Hi".data]) ≠ []) ∧
    (extract_text ignored_default
        (.element ("h" ++ toString 3) [] [Node.text "Hi".data])).take (3 + 1)
      = List.replicate 3 '#' ++ [' '] :=
  ⟨by decide, by decide, by decide,
    claim3_heading_prefix 3 (by decide) (by decide) [] [Node.text "Hi".data] (by decide)⟩

theorem olLines_length (n : Nat) (lines : List Str) :
    (olLines n lines).length = lines.length := by
  induction lines generalizing n with
  | nil => rfl
  | cons line rest ih =>
    simp only [olLines]
    split <;> simp [ih]

theorem olLines_getD (lines : List Str) (n i : Nat) (h : i < lines.length) :
    (olLines n lines).getD i [] =
      if trimChars (lines.getD i []) = [] then lines.getD i []
      else (toString (n + ((lines.take i).filter
            (fun l => !(trimChars l).isEmpty)).length)).data
        ++ ". ".data ++ lines.getD i [] := by
  induction lines generalizing n i with
  | nil => simp at h
  | cons line rest ih =>
    cases i with
    | zero =>
      simp only [olLines, List.take_zero, List.filter_nil, List.length_nil,
        Nat.add_zero, List.getD_cons_zero]
      split
      · rfl
      · rfl
    | succ i =>
      have h' : i < rest.length := by simpa using h
      simp only [olLines]
      split
      · next hb =>
        rw [List.getD_cons_succ, ih n i h', List.getD_cons_succ, List.take_succ_cons,
          List.filter_cons_of_neg (by simp [hb, List.isEmpty_iff])]
      · next hb =>
        rw [List.getD_cons_succ, ih (n + 1) i h', List.getD_cons_succ, List.take_succ_cons,
          List.filter_cons_of_pos (by simp [List.isEmpty_iff]; exact hb)]
        have harith : ∀ m : Nat, n + 1 + m = n + (m + 1) := by omega
        rw [List.length_cons, harith]

theorem splitLines_ne_nil (s : Str) : splitLines s ≠ [] := by
  induction s with
  | nil => simp [splitLines]
  | cons c rest ih =>
    by_cases hc : c = '\n'
    · simp [splitLines, hc]
    · rcases hs : splitLines rest with _ | ⟨l, ls⟩ <;> simp [splitLines, hc, hs]

theorem splitLines_eq_single_nil {s : Str} (h : splitLines s = [[]]) : s = [] := by
  cases s with
  | nil => rfl
  | cons c rest =>
    exfalso
    by_cases hc : c = '\n'
    · simp only [splitLines, if_pos hc, List.cons.injEq] at h
      exact splitLines_ne_nil rest h.2
    · rcases hs : splitLines rest with _ | ⟨l, ls⟩ <;>
        simp [splitLines, hc, hs, List.cons.injEq] at h

theorem olLines_eq_nil (n : Nat) (L : List Str) : olLines n L = [] ↔ L = [] := by
  cases L with
  | nil => simp [olLines]
  | cons line rest =>
    simp only [olLines]
    split <;> simp

theorem olLines_eq_single_nil (n : Nat) (L : List Str)
    (h : olLines n L = [[]]) : L = [[]] := by
  cases L with
  | nil => simp [olLines] at h
  | cons line rest =>
    simp only [olLines] at h
    split at h
    · next hb =>
      simp only [List.cons.injEq] at h
      rw [h.1, (olLines_eq_nil n rest).mp h.2]
    · next hb =>
      exfalso
      simp only [List.cons.injEq] at h
      have := h.1
      simp [List.append_eq_nil] at this

theorem joinNL_ne_nil_of (L : List Str) (hne : L ≠ []) (hns : L ≠ [[]]) :
    joinSep ['\n'] L ≠ [] := by
  match L with
  | [] => exact absurd rfl hne
  | [x] =>
    simp only [joinSep]
    intro h
    exact hns (by rw [h])
  | x :: y :: r =>
    simp only [joinSep]
    intro h
    simp [List.append_eq_nil] at h

/-- Claim C5: in an `ol` element's output each non-blank line of the joined
content is prefixed with a 1-based running counter followed by `". "`,
advanced only on non-blank lines (blank lines pass through unchanged); the
counter starts at 1 for every `ol` element independently, since every `ol`
is formatted as `olLines 1` of its own content; and the scenario
`<ol><li>a</li><li>b</li><li>c</li></ol>` yields the lines
`1. a`, `2. b`, `3. c` in that order. -/
theorem claim5_ol_numbering :
    (∀ (lines : List Str) (i : Nat), i < lines.length →
      (olLines 1 lines).length = lines.length ∧
      (olLines 1 lines).getD i [] =
        (if trimChars (lines.getD i []) = [] then lines.getD i []
         else (toString (1 + ((lines.take i).filter
               (fun l => !(trimChars l).isEmpty)).length)).data
           ++ ". ".data ++ lines.getD i [])) ∧
    (∀ (attrs : List (String × Str)) (children : List Node),
      trimChars (childText ignored_default 0 children) ≠ [] →
      extract_text ignored_default (.element "ol" attrs children) =
        joinSep ['\n'] (olLines 1 (splitLines
          (trimChars (childText ignored_default 0 children)))) ++ nl2) ∧
    html_to_text
        [Token.startTag "ol" [], Token.startTag "li" [], Token.textData "a".data,
         Token.endTag "li", Token.startTag "li" [], Token.textData "b".data,
         Token.endTag "li", Token.startTag "li" [], Token.textData "c".data,
         Token.endTag "li", Token.endTag "ol"]
      = "1. a\n2. b\n3. c\n".data := by
  refine ⟨fun lines i h => ⟨olLines_length 1 lines, olLines_getD lines 1 i h⟩, ?_, by decide⟩
  intro attrs children hc
  rw [extract_text_element _ _ _ _ (by decide) (by decide) (by decide)]
  have hfmt : applyFormat "ol" attrs (trimChars (childText ignored_default 0 children)) =
      joinSep ['\n'] (olLines 1 (splitLines
        (trimChars (childText ignored_default 0 children)))) := by
    unfold applyFormat
    rw [if_neg (by decide), if_neg (by decide), if_neg (by decide), if_neg (by decide),
      if_neg (by decide), if_neg (by decide), if_neg (by decide), if_neg (by decide),
      if_neg (by decide), if_neg (by decide), if_pos (by decide)]
  have hne : joinSep ['\n'] (olLines 1 (splitLines
      (trimChars (childText ignored_default 0 children)))) ≠ [] := by
    apply joinNL_ne_nil_of
    · rw [Ne, olLines_eq_nil]
      exact splitLines_ne_nil _
    · intro h
      exact hc (splitLines_eq_single_nil (olLines_eq_single_nil 1 _ h))
  rw [hfmt, if_pos ⟨hne, by decide⟩]

/-- Witness for C5: the characterization applied to the concrete line list
`["a", "b", "c"]` at index 1, and the `ol` extraction equation on
`<ol><li>x</li></ol>`-shaped children. -/
theorem claim5_ol_numbering_witness :
    ((1 : Nat) < (["a".data, "b".data, "c".data] : List Str).length ∧
      (olLines 1 ["a".data, "b".data, "c".data]).getD 1 [] =
        (toString 2).data ++ ". ".data ++ "b".data) ∧
    (trimChars (childText ignored_default 0 [Node.element "li" [] [Node.text "x".data]]) ≠ [] ∧
      extract_text ignored_default
          (.element "ol" [] [Node.element "li" [] [Node.text "x".data]]) =
        joinSep ['\n'] (olLines 1 (splitLines (trimChars
          (childText ignored_default 0 [Node.element "li" [] [Node.text "x".data]])))) ++ nl2) := by
  constructor
  · refine ⟨by decide, ?_⟩
    have h := (claim5_ol_numbering.1 ["a".data, "b".data, "c".data] 1 (by decide)).2
    rw [h]
    decide
  · exact ⟨by decide,
      claim5_ol_numbering.2.1 [] [Node.element "li" [] [Node.text "x".data]] (by decide)⟩

/-! ## Table-extractor lemmas -/

theorem getLast?_eq_some_ne_nil {l : Str} {c : Char} (h : l.getLast? = some c) :
    l ≠ [] := by
  rintro rfl
  simp at h

theorem pipesEscaped_append_left {a b : Str} (h : pipesEscaped (a ++ b)) :
    pipesEscaped a := by
  intro pre post hpre
  exact h pre (post ++ b) (by rw [hpre]; simp)

theorem pipesEscaped_dropWhile_nl {s : Str} (h : pipesEscaped s) :
    pipesEscaped (s.dropWhile (· = '\n')) := by
  intro pre post hpre
  have hdecomp : s = s.takeWhile (· = '\n') ++ (pre ++ '|' :: post) := by
    calc s = s.takeWhile (· = '\n') ++ s.dropWhile (· = '\n') :=
          (List.takeWhile_append_dropWhile (· = '\n') s).symm
    _ = s.takeWhile (· = '\n') ++ (pre ++ '|' :: post) := by rw [hpre]
  have h3 : s = (s.takeWhile (· = '\n') ++ pre) ++ '|' :: post := by
    conv_lhs => rw [hdecomp]
    rw [List.append_assoc]
  have h2 := h (s.takeWhile (· = '\n') ++ pre) post h3
  by_cases hpe : pre = []
  · exfalso
    subst hpe
    rw [List.append_nil] at h2
    have hmem := List.mem_of_mem_getLast? h2
    have := List.mem_takeWhile_imp hmem
    simp at this
  · rw [List.getLast?_append_of_ne_nil _ hpe] at h2
    exact h2

theorem stripNL_escaped {s : Str} (h : pipesEscaped s) : pipesEscaped (stripNL s) := by
  unfold stripNL
  apply pipesEscaped_dropWhile_nl
  apply pipesEscaped_append_left (b := (s.reverse.takeWhile (· = '\n')).reverse)
  have hs : (s.reverse.dropWhile (· = '\n')).reverse
      ++ (s.reverse.takeWhile (· = '\n')).reverse = s := by
    rw [← List.reverse_append, List.takeWhile_append_dropWhile, List.reverse_reverse]
  rw [hs]
  exact h

theorem count_dropWhile_nl (l : Str) :
    (l.dropWhile (· = '\n')).count '|' = l.count '|' := by
  conv_rhs => rw [← List.takeWhile_append_dropWhile (· = '\n') l]
  rw [List.count_append]
  have hz : (l.takeWhile (· = '\n')).count '|' = 0 := by
    rw [List.count_eq_zero]
    intro hmem
    have := List.mem_takeWhile_imp hmem
    simp at this
  omega

theorem stripNL_count (s : Str) : (stripNL s).count '|' = s.count '|' := by
  unfold stripNL
  rw [count_dropWhile_nl, List.count_reverse, count_dropWhile_nl, List.count_reverse]

theorem escPipe_count (t : Str) : (escPipe t).count '|' = t.count '|' := by
  induction t with
  | nil => rfl
  | cons c r ih =>
    simp only [escPipe]
    split
    · next hc =>
      subst hc
      simp only [List.count_cons, ih]
      norm_num
      decide
    · next hc =>
      rw [List.count_cons, List.count_cons, ih]

theorem escPipe_escaped (t : Str) : pipesEscaped (escPipe t) := by
  induction t with
  | nil =>
    intro pre post h
    simp [escPipe] at h
  | cons c r ih =>
    intro pre post h
    simp only [escPipe] at h
    split at h
    · cases pre with
      | nil =>
        injection h with h1 h2
        exact absurd h1 (by decide)
      | cons p0 pre' =>
        injection h with h1 h2
        cases pre' with
        | nil =>
          rw [← h1]
          rfl
        | cons p1 pre'' =>
          injection h2 with h3 h4
          have hlast := ih pre'' post h4
          have hne : pre'' ≠ [] := getLast?_eq_some_ne_nil hlast
          rw [show p0 :: p1 :: pre'' = [p0, p1] ++ pre'' from rfl,
            List.getLast?_append_of_ne_nil _ hne]
          exact hlast
    · next hc =>
      cases pre with
      | nil =>
        injection h with h1 h2
        exact absurd h1 hc
      | cons p0 pre' =>
        injection h with h1 h2
        have hlast := ih pre' post h2
        have hne : pre' ≠ [] := getLast?_eq_some_ne_nil hlast
        rw [show p0 :: pre' = [p0] ++ pre' from rfl,
          List.getLast?_append_of_ne_nil _ hne]
        exact hlast

theorem rowCells_cell_spec (ignored : List String) (l : List Node) :
    ∀ cell ∈ rowCells ignored l, ∃ t : Str,
      cell = stripNL (escPipe t) ∧ cell.count '|' = t.count '|' ∧ pipesEscaped cell := by
  induction l with
  | nil =>
    intro cell h
    simp [rowCells] at h
  | cons c r ih =>
    intro cell hc
    cases c with
    | text s => exact ih cell (by simpa [rowCells] using hc)
    | element ctag cattrs cchildren =>
      simp only [rowCells] at hc
      split at hc
      · split at hc
        · exact ih cell hc
        · rcases List.mem_cons.mp hc with rfl | hmem
          · refine ⟨trimChars (extract_text ignored (.element ctag cattrs cchildren)),
              rfl, ?_, ?_⟩
            · rw [stripNL_count, escPipe_count]
            · exact stripNL_escaped (escPipe_escaped _)
          · exact ih cell hmem
      · exact ih cell hc

theorem rowCells_eq_nil_iff (ignored : List String) (l : List Node) :
    rowCells ignored l = [] ↔ l.any (isNonemptyCell ignored) = false := by
  induction l with
  | nil => simp [rowCells]
  | cons c r ih =>
    cases c with
    | text s => simp [rowCells, isNonemptyCell, ih]
    | element ctag cattrs cchildren =>
      simp only [rowCells, List.any_cons, isNonemptyCell]
      split
      · next hcell =>
        split
        · next hempty =>
          rw [ih]
          simp [hempty, List.isEmpty_iff]
        · next hempty =>
          constructor
          · intro hcs
            exact absurd hcs (List.cons_ne_nil _ _)
          · intro hb
            exfalso
            rcases hcell with h | h <;>
              · subst h
                simp [List.isEmpty_iff] at hb
                exact hempty hb.1
      · next hcell =>
        rw [ih]
        rw [not_or] at hcell
        simp [hcell.1, hcell.2]

theorem tableRows_length_eq (ignored : List String) (children : List Node) :
    (tableRows ignored children).length = children.countP (isKeptRow ignored) := by
  induction children with
  | nil => rfl
  | cons c r ih =>
    cases c with
    | text s => simp [tableRows, List.countP_cons, isKeptRow, ih]
    | element ctag cattrs cchildren =>
      simp only [tableRows]
      split
      · next htr =>
        split
        · next hrow =>
          rw [ih]
          have hany := (rowCells_eq_nil_iff ignored cchildren).mp hrow
          simp [List.countP_cons, isKeptRow, hany]
        · next hrow =>
          rw [List.length_cons, ih]
          have hany : cchildren.any (isNonemptyCell ignored) = true := by
            by_cases hb : cchildren.any (isNonemptyCell ignored) = true
            · exact hb
            · exact absurd ((rowCells_eq_nil_iff ignored cchildren).mpr
                (Bool.eq_false_iff.mpr hb)) hrow
          simp [List.countP_cons, isKeptRow, htr, hany]
      · next htr =>
        rw [ih]
        simp [List.countP_cons, isKeptRow, htr]

theorem tableRows_cell_spec (ignored : List String) (children : List Node) :
    ∀ row ∈ tableRows ignored children, ∀ cell ∈ row, ∃ t : Str,
      cell = stripNL (escPipe t) ∧ cell.count '|' = t.count '|' ∧ pipesEscaped cell := by
  induction children with
  | nil =>
    intro row h
    simp [tableRows] at h
  | cons c r ih =>
    intro row hrow
    cases c with
    | text s => exact ih row (by simpa [tableRows] using hrow)
    | element ctag cattrs cchildren =>
      simp only [tableRows] at hrow
      split at hrow
      · split at hrow
        · exact ih row hrow
        · rcases List.mem_cons.mp hrow with rfl | hmem
          · exact rowCells_cell_spec ignored cchildren
          · exact ih row hmem
      · exact ih row hrow

/-- Claim C2: the Table Extractor keeps exactly the `tr` children with at
least one non-empty `th`/`td` cell (one output row per such `tr`, header
included); with no kept row it returns `""`; otherwise it emits the header
line from the first kept row, a separator with one `---` per cell of that
row, one line per remaining kept row, all joined by `"\n"` with a trailing
`"\n\n"`; and every cell is the pipe-escaped (`|` ↦ `\|`), newline-stripped
trimmed cell text, in which every `'|'` is preceded by `'\\'` and the pipe
count of the original extracted text is preserved. -/
theorem claim2_table_markdown (ignored : List String) (children : List Node) :
    (tableRows ignored children).length = children.countP (isKeptRow ignored) ∧
    (tableRows ignored children = [] → extract_table_text ignored children = []) ∧
    (∀ (r0 : List Str) (rest : List (List Str)),
      tableRows ignored children = r0 :: rest →
      extract_table_text ignored children =
        joinSep ['\n'] (mdRow r0 :: mdRow (r0.map fun _ => "---".data) :: rest.map mdRow)
          ++ nl2) ∧
    (∀ row ∈ tableRows ignored children, ∀ cell ∈ row, ∃ t : Str,
      cell = stripNL (escPipe t) ∧ cell.count '|' = t.count '|' ∧ pipesEscaped cell) := by
  refine ⟨tableRows_length_eq ignored children, ?_, ?_, tableRows_cell_spec ignored children⟩
  · intro h
    unfold extract_table_text mdTable
    rw [h]
  · intro r0 rest h
    unfold extract_table_text mdTable
    rw [h]

/-- Witness for C2: a one-row table whose cell text `a|b` is kept escaped. -/
theorem claim2_table_markdown_witness :
    (tableRows ignored_default
        [Node.element "tr" [] [Node.element "td" [] [Node.text "a|b".data]]]
      = ["a\\|b".data] :: []) ∧
    extract_table_text ignored_default
        [Node.element "tr" [] [Node.element "td" [] [Node.text "a|b".data]]]
      = joinSep ['\n'] (mdRow ["a\\|b".data]
          :: mdRow (["a\\|b".data].map fun _ => "---".data)
          :: ([] : List (List Str)).map mdRow) ++ nl2 :=
  ⟨by decide,
    (claim2_table_markdown ignored_default
        [Node.element "tr" [] [Node.element "td" [] [Node.text "a|b".data]]]).2.2.1
      ["a\\|b".data] [] (by decide)⟩

/-! ## Top-level line collapse -/

theorem splitLines_no_nl (s : Str) : ∀ l ∈ splitLines s, '\n' ∉ l := by
  induction s with
  | nil =>
    intro l hl
    simp [splitLines] at hl
    simp [hl]
  | cons c rest ih =>
    intro l hl
    by_cases hc : c = '\n'
    · simp only [splitLines, if_pos hc] at hl
      rcases List.mem_cons.mp hl with rfl | hl
      · simp
      · exact ih l hl
    · simp only [splitLines, if_neg hc] at hl
      rcases hs : splitLines rest with _ | ⟨m, ms⟩
      · exact absurd hs (splitLines_ne_nil rest)
      · rw [hs] at hl
        rcases List.mem_cons.mp hl with rfl | hl
        · intro hmem
          rcases List.mem_cons.mp hmem with h1 | h1
          · exact hc h1.symm
          · exact ih m (hs ▸ List.mem_cons_self m ms) h1
        · exact ih l (hs ▸ List.mem_cons_of_mem m hl)

theorem joinNL_ne_nil_of_nonblank (L : List Str) (hL : L ≠ [])
    (h : ∀ l ∈ L, trimChars l ≠ []) : joinSep ['\n'] L ≠ [] := by
  match L with
  | [] => exact absurd rfl hL
  | [x] =>
    simp only [joinSep]
    intro hx
    exact h x (List.mem_cons_self x []) (by rw [hx]; rfl)
  | x :: y :: r =>
    simp only [joinSep]
    intro hh
    simp [List.append_eq_nil] at hh

theorem joinNL_getLast_not_nl (L : List Str)
    (h : ∀ l ∈ L, trimChars l ≠ [] ∧ '\n' ∉ l) :
    (joinSep ['\n'] L).getLast? ≠ some '\n' := by
  induction L with
  | nil => simp [joinSep]
  | cons x rest ih =>
    cases rest with
    | nil =>
      simp only [joinSep]
      intro hx
      exact (h x (List.mem_cons_self x [])).2 (List.mem_of_mem_getLast? hx)
    | cons y r =>
      simp only [joinSep]
      have hJ : joinSep ['\n'] (y :: r) ≠ [] :=
        joinNL_ne_nil_of_nonblank _ (List.cons_ne_nil y r)
          (fun l hl => (h l (List.mem_cons_of_mem x hl)).1)
      rw [List.append_assoc, List.getLast?_append_of_ne_nil _
          (List.append_ne_nil_of_right_ne_nil _ hJ),
        show ('\n' :: []) ++ joinSep ['\n'] (y :: r) = ['\n'] ++ joinSep ['\n'] (y :: r)
          from rfl,
        List.getLast?_append_of_ne_nil _ hJ]
      exact ih (fun l hl => h l (List.mem_cons_of_mem x hl))

/-- Claim C6: the output of the top-level conversion is either empty, or the
blank-filtered lines of the extracted text re-joined with single newlines
plus exactly one trailing newline: every kept line is non-blank after
trimming and newline-free, the result ends in `'\n'`, and the part before
the final newline does not itself end in `'\n'` (exactly one trailing
newline).  An empty or all-whitespace token sequence (only whitespace text
tokens) yields the empty output, with no error (the function is total). -/
theorem claim6_line_collapse :
    (∀ toks : List Token,
      html_to_text toks = [] ∨
      ∃ L : List Str, (∀ l ∈ L, trimChars l ≠ [] ∧ '\n' ∉ l) ∧
        html_to_text toks = joinSep ['\n'] L ++ ['\n'] ∧
        (html_to_text toks).getLast? = some '\n' ∧
        (joinSep ['\n'] L).getLast? ≠ some '\n') ∧
    (∀ toks : List Token,
      (∀ t ∈ toks, ∃ d : Str, t = Token.textData d ∧ trimChars d = []) →
      html_to_text toks = []) := by
  constructor
  · intro toks
    by_cases hT : extract_text ignored_default (get_tree (processTokens toks)) = []
    · left
      simp [html_to_text, hT]
    · right
      refine ⟨(splitLines (extract_text ignored_default
          (get_tree (processTokens toks)))).filter (fun l => !(trimChars l).isEmpty),
        ?_, ?_, ?_, ?_⟩
      · intro l hl
        constructor
        · have hp := List.of_mem_filter hl
          simpa [List.isEmpty_iff] using hp
        · exact splitLines_no_nl _ l (List.mem_of_mem_filter hl)
      · simp [html_to_text, hT]
      · rw [show html_to_text toks = joinSep ['\n']
            ((splitLines (extract_text ignored_default
              (get_tree (processTokens toks)))).filter
                (fun l => !(trimChars l).isEmpty)) ++ ['\n'] by simp [html_to_text, hT]]
        rw [List.getLast?_append_of_ne_nil _ (List.cons_ne_nil '\n' [])]
        rfl
      · apply joinNL_getLast_not_nl
        intro l hl
        constructor
        · have hp := List.of_mem_filter hl
          simpa [List.isEmpty_iff] using hp
        · exact splitLines_no_nl _ l (List.mem_of_mem_filter hl)
  · intro toks hws
    have hstate : processTokens toks = initState := by
      unfold processTokens
      induction toks with
      | nil => rfl
      | cons t rest ih =>
        obtain ⟨d, rfl, hd⟩ := hws t (List.mem_cons_self t rest)
        rw [List.foldl_cons]
        have hstep : processToken initState (Token.textData d) = initState := by
          show handle_data initState d = initState
          unfold handle_data
          rw [if_neg (by simpa using hd)]
        rw [hstep]
        exact ih (fun u hu => hws u (List.mem_cons_of_mem _ hu))
    unfold html_to_text
    rw [hstate]
    decide

/-- Witness for C6: a single whitespace text token yields empty output. -/
theorem claim6_line_collapse_witness :
    html_to_text [Token.textData "  ".data] = [] :=
  claim6_line_collapse.2 [Token.textData "  ".data]
    (fun t ht => by
      rcases List.mem_cons.mp ht with rfl | hf
      · exact ⟨"  ".data, rfl, by decide⟩
      · exact absurd hf (List.not_mem_nil t))

/-! ## Attribute independence -/

theorem applyFormat_congr (tag : String) (a1 a2 : List (String × Str)) (c : Str)
    (h : tag = "a" → getHref a1 = getHref a2) :
    applyFormat tag a1 c = applyFormat tag a2 c := by
  by_cases ha : tag = "a"
  · unfold applyFormat
    rw [h ha]
  · unfold applyFormat
    rw [if_neg ha, if_neg ha]

mutual

theorem extract_text_congr (ignored : List String) (n1 n2 : Node) (h : AEq n1 n2) :
    extract_text ignored n1 = extract_text ignored n2 := by
  cases h with
  | text s => rfl
  | element tag a1 a2 cs1 cs2 hhref hcs =>
    rw [extract_text, extract_text]
    by_cases hig : tag ∈ ignored
    · rw [if_pos hig, if_pos hig]
    · rw [if_neg hig, if_neg hig]
      by_cases ht : tag = "table"
      · rw [if_pos ht, if_pos ht, tableRows_congr ignored cs1 cs2 hcs]
      · rw [if_neg ht, if_neg ht]
        by_cases hh : tag = "hr"
        · rw [if_pos hh, if_pos hh]
        · rw [if_neg hh, if_neg hh, childText_congr ignored 0 cs1 cs2 hcs,
            applyFormat_congr tag a1 a2 _ hhref]

theorem childText_congr (ignored : List String) (i : Nat) (l1 l2 : List Node)
    (h : AEqs l1 l2) : childText ignored i l1 = childText ignored i l2 := by
  cases h with
  | nil => rfl
  | cons hn hs =>
    cases hn with
    | text s =>
      rw [childText, childText, childText_congr ignored (i + 1) _ _ hs]
    | element tag a1 a2 cs1 cs2 hhref hcs =>
      rw [childText, childText,
        extract_text_congr ignored _ _ (AEq.element tag a1 a2 cs1 cs2 hhref hcs),
        childText_congr ignored (i + 1) _ _ hs]

theorem tableRows_congr (ignored : List String) (l1 l2 : List Node) (h : AEqs l1 l2) :
    tableRows ignored l1 = tableRows ignored l2 := by
  cases h with
  | nil => rfl
  | cons hn hs =>
    cases hn with
    | text s =>
      rw [tableRows, tableRows]
      exact tableRows_congr ignored _ _ hs
    | element tag a1 a2 cs1 cs2 hhref hcs =>
      rw [tableRows, tableRows]
      by_cases htr : tag = "tr"
      · rw [if_pos htr, if_pos htr, rowCells_congr ignored cs1 cs2 hcs,
          tableRows_congr ignored _ _ hs]
      · rw [if_neg htr, if_neg htr]
        exact tableRows_congr ignored _ _ hs

theorem rowCells_congr (ignored : List String) (l1 l2 : List Node) (h : AEqs l1 l2) :
    rowCells ignored l1 = rowCells ignored l2 := by
  cases h with
  | nil => rfl
  | cons hn hs =>
    cases hn with
    | text s =>
      rw [rowCells, rowCells]
      exact rowCells_congr ignored _ _ hs
    | element tag a1 a2 cs1 cs2 hhref hcs =>
      rw [rowCells, rowCells]
      by_cases hcell : tag = "th" ∨ tag = "td"
      · rw [if_pos hcell, if_pos hcell,
          extract_text_congr ignored _ _ (AEq.element tag a1 a2 cs1 cs2 hhref hcs),
          rowCells_congr ignored _ _ hs]
      · rw [if_neg hcell, if_neg hcell]
        exact rowCells_congr ignored _ _ hs

end

/-- Claim C7: the conversion is pure and deterministic (equal token input
and a fixed ignored-tag set give equal output), and extraction is invariant
under changing any attribute value except the effective `href` of an `a`
element: two trees related by `AEq` (same shape, same tags, same text, `a`
elements agreeing on `href`) extract identically — no other attribute
influences the result. -/
theorem claim7_determinism_attr_independence :
    (∀ toks : List Token, html_to_text toks = html_to_text toks) ∧
    (∀ (ignored : List String) (n1 n2 : Node), AEq n1 n2 →
      extract_text ignored n1 = extract_text ignored n2) :=
  ⟨fun _ => rfl, fun ignored n1 n2 h => extract_text_congr ignored n1 n2 h⟩

/-- Witness for C7: changing a `class` attribute value does not change the
extraction. -/
theorem claim7_determinism_attr_independence_witness :
    AEq (Node.element "p" [("class", "x".data)] [Node.text "hi".data])
        (Node.element "p" [("class", "y".data)] [Node.text "hi".data]) ∧
    extract_text ignored_default
        (Node.element "p" [("class", "x".data)] [Node.text "hi".data])
      = extract_text ignored_default
        (Node.element "p" [("class", "y".data)] [Node.text "hi".data]) := by
  have ha : AEq (Node.element "p" [("class", "x".data)] [Node.text "hi".data])
      (Node.element "p" [("class", "y".data)] [Node.text "hi".data]) :=
    AEq.element "p" _ _ _ _ (fun h => absurd h (by decide))
      (AEqs.cons (AEq.text _) AEqs.nil)
  exact ⟨ha, claim7_determinism_attr_independence.2 ignored_default _ _ ha⟩

end HtmlToMd
